import Mathlib

/-!
# Verification of the SimpleIMU core (src/IMU.py)

Shallow embedding of the two core functions of the repository:

* `parse_imu_data` (IMU.py lines 8-31): envelope check `S...E`, split of the
  body on `/`, exactly six tokens, each converted with Python's `float`.
* `moving_average_filter` (IMU.py lines 33-48): append to the channel queue,
  pop the leftmost element when the length exceeds the window size, return
  `sum(queue) / len(queue)`.

Strings are embedded as `List Char` and numeric values as exact rationals
(`ℚ`): the decimal text of the telemetry determines an exact rational, and
every concrete value appearing in the spec's scenarios is exactly
representable, so binary floating-point rounding — which this embedding does
not model — is irrelevant to the claims settled here.  Python's `float(str)`
conversion is embedded by `pyFloat?`, following the documented CPython text
grammar for ASCII input: optional surrounding whitespace, an optional sign,
then either a decimal number (integer part and/or fractional part, single
underscores allowed between digits, optional exponent) or a case-insensitive
spelling of `inf` / `infinity` / `nan`.  Non-finite results are represented
symbolically by the constructors `PyFloat.inf`, `PyFloat.ninf`, `PyFloat.nan`.
The `ZeroDivisionError` that `sum(q)/len(q)` raises on an empty queue is
modelled by an `Option` result.
-/

set_option maxRecDepth 100000

namespace SimpleIMU

/-! ## Character helpers (ASCII) -/

/-- ASCII decimal digit test, on code points (codes 48-57). -/
def isDigitCh (c : Char) : Bool := decide (48 ≤ c.toNat ∧ c.toNat ≤ 57)

/-- Numeric value of an ASCII digit character. -/
def digitVal (c : Char) : Nat := c.toNat - 48

/-- The characters Python's `float` strips from both ends of its argument
(space, tab, newline, carriage return, vertical tab, form feed). -/
def isPySpace (c : Char) : Bool :=
  decide (c.toNat = 32 ∨ c.toNat = 9 ∨ c.toNat = 10 ∨ c.toNat = 13 ∨
    c.toNat = 11 ∨ c.toNat = 12)

/-- ASCII lower-casing, used because `float` accepts `inf`/`nan`/`e`
case-insensitively. -/
def asciiLower (c : Char) : Char :=
  if 65 ≤ c.toNat ∧ c.toNat ≤ 90 then Char.ofNat (c.toNat + 32) else c

/-- Strip `isPySpace` characters from both ends, as `float` does. -/
def stripChars (l : List Char) : List Char :=
  ((l.dropWhile isPySpace).reverse.dropWhile isPySpace).reverse

/-! ## Python float text grammar -/

/-- Consume a continuation of a digit part: digits, with single underscores
allowed between digits.  Returns the accumulated value, the digit count and
the unconsumed rest. -/
def digitPartAux : List Char → Nat → Nat → Nat × Nat × List Char
  | [], acc, n => (acc, n, [])
  | [c], acc, n =>
    if isDigitCh c then (acc * 10 + digitVal c, n + 1, []) else (acc, n, [c])
  | c :: d :: rest, acc, n =>
    if isDigitCh c then digitPartAux (d :: rest) (acc * 10 + digitVal c) (n + 1)
    else if c = '_' ∧ isDigitCh d then
      digitPartAux rest (acc * 10 + digitVal d) (n + 1)
    else (acc, n, c :: d :: rest)

/-- Consume a digit part (`digit (["_"] digit)*`); fails unless the input
starts with a digit. -/
def digitPart (l : List Char) : Option (Nat × Nat × List Char) :=
  match l with
  | [] => none
  | c :: rest =>
    if isDigitCh c then some (digitPartAux rest (digitVal c) 1) else none

/-- A digit part that must consume the whole input (used for exponents). -/
def digitPartFull (l : List Char) : Option Nat :=
  match digitPart l with
  | some (v, _, []) => some v
  | _ => none

/-- Apply an optional exponent suffix (`e [sign] digitpart`, input already
lower-cased) to a mantissa; the whole rest must be consumed. -/
def applyExp (l : List Char) (m : ℚ) : Option ℚ :=
  match l with
  | [] => some m
  | c :: rest =>
    if c = 'e' then
      match rest with
      | '+' :: r =>
        match digitPartFull r with
        | some n => some (m * 10 ^ n)
        | none => none
      | '-' :: r =>
        match digitPartFull r with
        | some n => some (m / 10 ^ n)
        | none => none
      | r =>
        match digitPartFull r with
        | some n => some (m * 10 ^ n)
        | none => none
    else none

/-- An unsigned Python float number: `digitpart ["." [digitpart]] [exp]`
or `"." digitpart [exp]`, evaluated exactly in `ℚ`. -/
def pyNumber (l : List Char) : Option ℚ :=
  match digitPart l with
  | some (ip, _, rest) =>
    match rest with
    | '.' :: rest2 =>
      match digitPart rest2 with
      | some (fp, fn, rest3) => applyExp rest3 ((ip : ℚ) + (fp : ℚ) / 10 ^ fn)
      | none => applyExp rest2 (ip : ℚ)
    | _ => applyExp rest (ip : ℚ)
  | none =>
    match l with
    | '.' :: rest2 =>
      match digitPart rest2 with
      | some (fp, fn, rest3) => applyExp rest3 ((fp : ℚ) / 10 ^ fn)
      | none => none
    | _ => none

/-- The value domain of Python's `float(str)`: an exact rational for finite
results, and symbolic non-finite values. -/
inductive PyFloat where
  | finite (q : ℚ)
  | inf
  | ninf
  | nan
deriving DecidableEq, Repr

/-- The part of `float(str)` after stripping, lower-casing and sign removal:
`inf`/`infinity`/`nan` spellings or a number. -/
def pyFloatBody (body : List Char) (neg : Bool) : Option PyFloat :=
  if body = ['i', 'n', 'f'] ∨ body = ['i', 'n', 'f', 'i', 'n', 'i', 't', 'y'] then
    some (if neg then PyFloat.ninf else PyFloat.inf)
  else if body = ['n', 'a', 'n'] then
    some PyFloat.nan
  else
    match pyNumber body with
    | some q => some (PyFloat.finite (if neg then -q else q))
    | none => none

/-- Python's `float(str)` on ASCII text: strip surrounding whitespace,
lower-case, take one optional sign, then read the body.  `none` models
`ValueError`. -/
def pyFloat? (l : List Char) : Option PyFloat :=
  let s := (stripChars l).map asciiLower
  if s.head? = some '+' then pyFloatBody s.tail false
  else if s.head? = some '-' then pyFloatBody s.tail true
  else pyFloatBody s false

/-! ## The frame parser (IMU.py lines 8-31) -/

/-- `str.split("/")`: split on every slash, keeping empty pieces; the result
is always non-empty (`"".split("/") == [""]`). -/
def splitSlash : List Char → List (List Char)
  | [] => [[]]
  | c :: rest =>
    if c = '/' then [] :: splitSlash rest
    else
      match splitSlash rest with
      | t :: ts => (c :: t) :: ts
      | [] => [[c]]

/-- `"/".join`, the inverse used to state the round-trip property. -/
def joinSlash : List (List Char) → List Char
  | [] => []
  | [t] => t
  | t :: ts => t ++ '/' :: joinSlash ts

/-- The result of a successful parse: six ordered channel values. -/
structure Sample where
  acc_x : PyFloat
  acc_y : PyFloat
  acc_z : PyFloat
  gyro_x : PyFloat
  gyro_y : PyFloat
  gyro_z : PyFloat
deriving DecidableEq, Repr

/-- The `/`-separated tokens of the body `data[1:-1]`. -/
def tokens (data : List Char) : List (List Char) :=
  splitSlash ((data.drop 1).dropLast)

/-- IMU.py lines 8-31.  `data.startswith("S")` / `data.endswith("E")` become
head/last checks; `data[1:-1].split("/")` is `tokens`; the six `float`
conversions use `pyFloat?`, and any failure yields `none` (Python's
`ValueError` handler returns `None`). -/
def parse_imu_data (data : List Char) : Option Sample :=
  if data.head? = some 'S' ∧ data.getLast? = some 'E' then
    if (tokens data).length = 6 then
      match (tokens data).map pyFloat? with
      | [some v0, some v1, some v2, some v3, some v4, some v5] =>
        some ⟨v0, v1, v2, v3, v4, v5⟩
      | _ => none
    else none
  else none

/-! ## The channel smoother (IMU.py lines 33-48) -/

/-- The queue after one call of `moving_average_filter`: append the new
value, then pop the leftmost element when the length exceeds the window
size. -/
def mafQueue (data_queue : List ℚ) (new_value : ℚ) (window_size : ℕ) : List ℚ :=
  let q1 := data_queue ++ [new_value]
  if window_size < q1.length then q1.tail else q1

/-- IMU.py lines 33-48 (the Python default for `window_size` is 10, passed
explicitly here).  Returns the mutated queue together with the result;
`none` models the `ZeroDivisionError` of `sum(q)/len(q)` on an empty
queue. -/
def moving_average_filter (data_queue : List ℚ) (new_value : ℚ)
    (window_size : ℕ) : List ℚ × Option ℚ :=
  let q2 := mafQueue data_queue new_value window_size
  (q2, if q2.length = 0 then none else some (q2.sum / (q2.length : ℚ)))

/-- Feed a sequence of values through one channel's filter, collecting the
final queue and the outputs in order. -/
def runFilter (q : List ℚ) (W : ℕ) : List ℚ → List ℚ × List (Option ℚ)
  | [] => (q, [])
  | v :: vs =>
    let step := moving_average_filter q v W
    let rest := runFilter step.1 W vs
    (rest.1, step.2 :: rest.2)

/-! ## The caller's routing (IMU.py lines 241-256) -/

/-- IMU.py lines 241-256: `read_serial_data` parses each line; a parsed
tuple (always truthy in Python) goes to the data path, `None` sends the
original line text to the non-data diagnostic label. -/
def route_line (data : List Char) : Sample ⊕ List Char :=
  match parse_imu_data data with
  | some s => Sum.inl s
  | none => Sum.inr data

/-! ## Decimal formatting (the `f"{v:.2f}"` output format of the app,
restricted to values with at most two decimal places) -/

/-- The decimal digit character for `r % 10`. -/
def digitCh : Nat → Char
  | 0 => '0' | 1 => '1' | 2 => '2' | 3 => '3' | 4 => '4'
  | 5 => '5' | 6 => '6' | 7 => '7' | 8 => '8' | _ => '9'

/-- Little-endian decimal digits of `n`; the first argument is fuel, and
`n` itself is always enough fuel. -/
def natDigitsRev : Nat → Nat → List Char
  | 0, _ => []
  | fuel + 1, n =>
    if n = 0 then [] else digitCh (n % 10) :: natDigitsRev fuel (n / 10)

/-- Decimal digit characters of `n`, most significant first; `0` is `"0"`. -/
def natToDigits (n : Nat) : List Char :=
  if n = 0 then ['0'] else (natDigitsRev n n).reverse

/-- Two-decimal formatting of the rational `n / 100`, as Python's
`f"{v:.2f}"` renders such a value: optional minus sign, integer digits,
a dot, exactly two fractional digits. -/
def format2 (n : ℤ) : List Char :=
  let m := n.natAbs
  let s := natToDigits (m / 100) ++ '.' :: [digitCh ((m / 10) % 10), digitCh (m % 10)]
  if n < 0 then '-' :: s else s

/-! ## The spec's plain decimal notation (§4.1 rule 4) -/

/-- Modelled from the spec's words: a token in "standard signed decimal
notation, optional leading `-`, optional fractional part".  Used to compare
the spec's stated token language with what `pyFloat?` (Python's `float`)
actually accepts. -/
def plainDecimal (l : List Char) : Prop :=
  ∃ sgn intDig frac : List Char,
    (sgn = [] ∨ sgn = ['-']) ∧
    intDig ≠ [] ∧ (∀ c ∈ intDig, isDigitCh c = true) ∧
    (frac = [] ∨ ∃ fd, fd ≠ [] ∧ (∀ c ∈ fd, isDigitCh c = true) ∧ frac = '.' :: fd) ∧
    l = sgn ++ intDig ++ frac

/-! ## Helper lemmas: digit parts -/

/-- The value of a big-endian digit run read on top of an accumulator,
exactly as `digitPartAux` accumulates it. -/
def valAcc (acc : Nat) (ds : List Char) : Nat :=
  ds.foldl (fun a c => a * 10 + digitVal c) acc

/-- The value of a little-endian digit list, as produced by `natDigitsRev`. -/
def valRev : List Char → Nat
  | [] => 0
  | c :: ds => digitVal c + 10 * valRev ds

/-- A list that cannot extend a digit part: empty, or headed by a character
that is neither a digit nor an underscore. -/
def boundaryOk : List Char → Prop
  | [] => True
  | c :: _ => isDigitCh c = false ∧ c ≠ '_'

theorem digitPartAux_spec (ds : List Char) (hds : ∀ c ∈ ds, isDigitCh c = true)
    (rest : List Char) (hrest : boundaryOk rest) (acc n : Nat) :
    digitPartAux (ds ++ rest) acc n = (valAcc acc ds, n + ds.length, rest) := by
  induction ds generalizing acc n with
  | nil =>
    rcases rest with _ | ⟨c, _ | ⟨d, r⟩⟩
    · rfl
    · obtain ⟨h1, _⟩ := hrest
      simp [digitPartAux, h1, valAcc]
    · obtain ⟨h1, h2⟩ := hrest
      simp [digitPartAux, h1, h2, valAcc]
  | cons e ds' ih =>
    have he : isDigitCh e = true := hds e (by simp)
    have hds' : ∀ c ∈ ds', isDigitCh c = true := fun c hc => hds c (by simp [hc])
    rcases h : ds' ++ rest with _ | ⟨x, xs⟩
    · obtain ⟨h1, h2⟩ := List.append_eq_nil.mp h
      subst h1; subst h2
      simp [digitPartAux, he, valAcc]
    · have : digitPartAux (e :: ds' ++ rest) acc n
          = digitPartAux (ds' ++ rest) (acc * 10 + digitVal e) (n + 1) := by
        rw [List.cons_append, h]
        simp [digitPartAux, he]
      rw [this, ih hds' _ _]
      simp [valAcc, List.foldl_cons]
      omega

theorem digitPart_spec (ds : List Char) (hne : ds ≠ [])
    (hds : ∀ c ∈ ds, isDigitCh c = true)
    (rest : List Char) (hrest : boundaryOk rest) :
    digitPart (ds ++ rest) = some (valAcc 0 ds, ds.length, rest) := by
  rcases ds with _ | ⟨d, ds'⟩
  · exact absurd rfl hne
  · have hd : isDigitCh d = true := hds d (by simp)
    have hds' : ∀ c ∈ ds', isDigitCh c = true := fun c hc => hds c (by simp [hc])
    simp only [List.cons_append, digitPart, hd, if_true]
    rw [digitPartAux_spec ds' hds' rest hrest]
    simp [valAcc, List.foldl_cons]
    omega

/-! ## Helper lemmas: decimal digits -/

theorem digitCh_isDigit {r : Nat} (h : r < 10) : isDigitCh (digitCh r) = true := by
  interval_cases r <;> decide

theorem digitCh_val {r : Nat} (h : r < 10) : digitVal (digitCh r) = r := by
  interval_cases r <;> decide

theorem natDigitsRev_digits (fuel n : Nat) :
    ∀ c ∈ natDigitsRev fuel n, isDigitCh c = true := by
  induction fuel generalizing n with
  | zero => simp [natDigitsRev]
  | succ fuel ih =>
    by_cases h : n = 0
    · simp [natDigitsRev, h]
    · simp only [natDigitsRev, h, if_false, List.mem_cons]
      rintro c (rfl | hc)
      · exact digitCh_isDigit (Nat.mod_lt n (by omega))
      · exact ih _ c hc

theorem valRev_natDigitsRev (fuel : Nat) :
    ∀ n, n ≤ fuel → valRev (natDigitsRev fuel n) = n := by
  induction fuel with
  | zero => intro n h; interval_cases n; rfl
  | succ fuel ih =>
    intro n h
    by_cases h0 : n = 0
    · simp [natDigitsRev, h0, valRev]
    · have hdiv : n / 10 ≤ fuel := by omega
      simp only [natDigitsRev, h0, if_false, valRev, ih _ hdiv,
        digitCh_val (Nat.mod_lt n (by omega))]
      omega

theorem natToDigits_digits (n : Nat) :
    ∀ c ∈ natToDigits n, isDigitCh c = true := by
  unfold natToDigits
  by_cases h : n = 0
  · simp [h]; decide
  · simp only [h, if_false]
    intro c hc
    exact natDigitsRev_digits n n c (List.mem_reverse.mp hc)

theorem natToDigits_ne_nil (n : Nat) : natToDigits n ≠ [] := by
  unfold natToDigits
  by_cases h : n = 0
  · simp [h]
  · simp only [h, if_false, ne_eq, List.reverse_eq_nil_iff]
    rcases n with _ | m
    · exact absurd rfl h
    · simp [natDigitsRev, h]

theorem valAcc_append (ds es : List Char) (acc : Nat) :
    valAcc acc (ds ++ es) = valAcc (valAcc acc ds) es := by
  simp [valAcc, List.foldl_append]

theorem valAcc_reverse (ds : List Char) (acc : Nat) :
    valAcc acc ds.reverse = acc * 10 ^ ds.length + valRev ds := by
  induction ds generalizing acc with
  | nil => simp [valAcc, valRev]
  | cons c ds' ih =>
    simp only [List.reverse_cons, valAcc_append, ih, valRev, List.length_cons]
    simp [valAcc, List.foldl_cons]
    ring

theorem valAcc_natToDigits (n : Nat) : valAcc 0 (natToDigits n) = n := by
  unfold natToDigits
  by_cases h : n = 0
  · simp [h]; decide
  · simp only [h, if_false]
    rw [valAcc_reverse, valRev_natDigitsRev n n le_rfl]
    simp

/-! ## Helper lemmas: character classes -/

/-- The characters appearing in formatted numbers and plain decimal
tokens. -/
def numChar (c : Char) : Prop := isDigitCh c = true ∨ c = '.' ∨ c = '-'

theorem numChar_toNat {c : Char} (h : numChar c) :
    (48 ≤ c.toNat ∧ c.toNat ≤ 57) ∨ c.toNat = 46 ∨ c.toNat = 45 := by
  rcases h with h | rfl | rfl
  · left; simpa [isDigitCh] using h
  · right; left; rfl
  · right; right; rfl

theorem numChar_not_space {c : Char} (h : numChar c) : isPySpace c = false := by
  have := numChar_toNat h
  simp only [isPySpace, decide_eq_false_iff_not]
  omega

theorem numChar_lower {c : Char} (h : numChar c) : asciiLower c = c := by
  have := numChar_toNat h
  unfold asciiLower
  rw [if_neg]
  omega

theorem numChar_ne_slash {c : Char} (h : numChar c) : c ≠ '/' := by
  intro hc
  have h2 := numChar_toNat h
  subst hc
  have h47 : ('/' : Char).toNat = 47 := rfl
  omega

/-! ## Helper lemmas: strip and lower-case are no-ops on clean tokens -/

theorem dropWhile_eq_self {l : List Char} (h : ∀ c ∈ l, isPySpace c = false) :
    l.dropWhile isPySpace = l := by
  rcases l with _ | ⟨c, r⟩
  · rfl
  · rw [List.dropWhile_cons, h c (by simp)]
    simp

theorem stripChars_eq_self {l : List Char} (h : ∀ c ∈ l, isPySpace c = false) :
    stripChars l = l := by
  unfold stripChars
  rw [dropWhile_eq_self h, dropWhile_eq_self (by simpa using h), List.reverse_reverse]

theorem map_lower_eq_self {l : List Char} (h : ∀ c ∈ l, asciiLower c = c) :
    l.map asciiLower = l := by
  induction l with
  | nil => rfl
  | cons c r ih =>
    simp only [List.map_cons, h c (by simp), ih (fun d hd => h d (by simp [hd]))]

/-! ## Helper lemmas: split and join on `/` -/

theorem splitSlash_ne_nil (l : List Char) : splitSlash l ≠ [] := by
  rcases l with _ | ⟨c, r⟩
  · simp [splitSlash]
  · simp only [splitSlash]
    split
    · simp
    · split <;> simp

theorem splitSlash_no_slash (t : List Char) (h : '/' ∉ t) : splitSlash t = [t] := by
  induction t with
  | nil => rfl
  | cons c t' ih =>
    have hc : c ≠ '/' := fun hc => h (by simp [hc])
    have ht' : '/' ∉ t' := fun ht => h (by simp [ht])
    simp only [splitSlash, hc, if_false, ih ht']

theorem splitSlash_append (t r : List Char) (h : '/' ∉ t) :
    splitSlash (t ++ '/' :: r) = t :: splitSlash r := by
  induction t with
  | nil => simp [splitSlash]
  | cons c t' ih =>
    have hc : c ≠ '/' := fun hc => h (by simp [hc])
    have ht' : '/' ∉ t' := fun ht => h (by simp [ht])
    simp only [List.cons_append, splitSlash, hc, if_false, List.append_eq, ih ht']

theorem splitSlash_joinSlash (ts : List (List Char)) (hne : ts ≠ [])
    (h : ∀ t ∈ ts, '/' ∉ t) : splitSlash (joinSlash ts) = ts := by
  induction ts with
  | nil => exact absurd rfl hne
  | cons t ts' ih =>
    rcases ts' with _ | ⟨t2, ts''⟩
    · exact splitSlash_no_slash t (h t (by simp))
    · rw [show joinSlash (t :: t2 :: ts'') = t ++ '/' :: joinSlash (t2 :: ts'') from rfl]
      rw [splitSlash_append t _ (h t (by simp))]
      rw [ih (by simp) (fun u hu => h u (by simp [List.mem_cons] at hu ⊢; tauto))]

/-! ## Helper lemmas: shape of a successful parse -/

theorem six_of_length {α : Type} {l : List α} (h : l.length = 6) :
    ∃ a b c d e f, l = [a, b, c, d, e, f] := by
  rcases l with _ | ⟨a, _ | ⟨b, _ | ⟨c, _ | ⟨d, _ | ⟨e, _ | ⟨f, _ | ⟨g, r⟩⟩⟩⟩⟩⟩⟩ <;>
    simp at h
  exact ⟨a, b, c, d, e, f, rfl⟩

/-! ## Helper lemmas: evaluating `pyFloat?` on clean numeric tokens -/

theorem digitPart_all (ds : List Char) (hne : ds ≠ [])
    (hds : ∀ c ∈ ds, isDigitCh c = true) :
    digitPart ds = some (valAcc 0 ds, ds.length, []) := by
  have h := digitPart_spec ds hne hds [] trivial
  simpa using h

theorem pyNumber_digits (ds : List Char) (hne : ds ≠ [])
    (hds : ∀ c ∈ ds, isDigitCh c = true) :
    pyNumber ds = some ((valAcc 0 ds : ℚ)) := by
  unfold pyNumber
  rw [digitPart_all ds hne hds]
  rcases ds with _ | ⟨c, r⟩
  · exact absurd rfl hne
  · rfl

theorem pyNumber_digits_frac (ds fd : List Char) (hne : ds ≠ [])
    (hds : ∀ c ∈ ds, isDigitCh c = true) (hfne : fd ≠ [])
    (hfd : ∀ c ∈ fd, isDigitCh c = true) :
    pyNumber (ds ++ '.' :: fd) =
      some ((valAcc 0 ds : ℚ) + (valAcc 0 fd : ℚ) / 10 ^ fd.length) := by
  unfold pyNumber
  rw [digitPart_spec ds hne hds ('.' :: fd) (by exact ⟨by decide, by decide⟩)]
  simp only
  rw [digitPart_all fd hfne hfd]
  rfl

theorem pyFloatBody_number {c : Char} {r : List Char} (hc : isDigitCh c = true)
    (neg : Bool) :
    pyFloatBody (c :: r) neg =
      (pyNumber (c :: r)).map (fun q => PyFloat.finite (if neg then -q else q)) := by
  have hci : c ≠ 'i' := by
    rintro rfl; exact absurd hc (by decide)
  have hcn : c ≠ 'n' := by
    rintro rfl; exact absurd hc (by decide)
  unfold pyFloatBody
  rw [if_neg, if_neg]
  · rcases pyNumber (c :: r) with _ | q <;> rfl
  · intro h
    exact hcn (by injection h)
  · rintro (h | h) <;> exact hci (by injection h)

theorem clean_of_numChar {l : List Char} (h : ∀ c ∈ l, numChar c) :
    (∀ c ∈ l, isPySpace c = false) ∧ (∀ c ∈ l, asciiLower c = c) :=
  ⟨fun c hc => numChar_not_space (h c hc), fun c hc => numChar_lower (h c hc)⟩

/-- `pyFloat?` on a clean token headed by a digit takes the unsigned path. -/
theorem pyFloat?_digit_head {c : Char} {r : List Char} (hc : isDigitCh c = true)
    (h : ∀ x ∈ c :: r, numChar x) :
    pyFloat? (c :: r) = pyFloatBody (c :: r) false := by
  obtain ⟨h1, h2⟩ := clean_of_numChar h
  unfold pyFloat?
  rw [stripChars_eq_self h1, map_lower_eq_self h2]
  have hp : c ≠ '+' := by rintro rfl; exact absurd hc (by decide)
  have hm : c ≠ '-' := by rintro rfl; exact absurd hc (by decide)
  simp [hp, hm]

/-- `pyFloat?` on a clean token headed by a minus sign takes the negative
path. -/
theorem pyFloat?_neg_head {r : List Char} (h : ∀ x ∈ '-' :: r, numChar x) :
    pyFloat? ('-' :: r) = pyFloatBody r true := by
  obtain ⟨h1, h2⟩ := clean_of_numChar h
  unfold pyFloat?
  rw [stripChars_eq_self h1, map_lower_eq_self h2]
  simp

theorem numChar_of_parts {ds fd : List Char}
    (hds : ∀ c ∈ ds, isDigitCh c = true) (hfd : ∀ c ∈ fd, isDigitCh c = true) :
    ∀ x ∈ ds ++ '.' :: fd, numChar x := by
  intro x hx
  rcases List.mem_append.mp hx with hx | hx
  · exact Or.inl (hds x hx)
  · rcases List.mem_cons.mp hx with rfl | hx
    · exact Or.inr (Or.inl rfl)
    · exact Or.inl (hfd x hx)

/-- Evaluating `pyFloat?` on an unsigned token `digits "." digits`. -/
theorem pyFloat?_digits_frac (ds fd : List Char) (hne : ds ≠ [])
    (hds : ∀ c ∈ ds, isDigitCh c = true) (hfne : fd ≠ [])
    (hfd : ∀ c ∈ fd, isDigitCh c = true) :
    pyFloat? (ds ++ '.' :: fd) =
      some (PyFloat.finite ((valAcc 0 ds : ℚ) + (valAcc 0 fd : ℚ) / 10 ^ fd.length)) := by
  rcases ds with _ | ⟨c, r⟩
  · exact absurd rfl hne
  · have hc : isDigitCh c = true := hds c (by simp)
    rw [List.cons_append, pyFloat?_digit_head hc
      (by rw [← List.cons_append]; exact numChar_of_parts hds hfd),
      pyFloatBody_number hc, ← List.cons_append,
      pyNumber_digits_frac (c :: r) fd hne hds hfne hfd]
    rfl

/-- Evaluating `pyFloat?` on a token `"-" digits "." digits`. -/
theorem pyFloat?_neg_digits_frac (ds fd : List Char) (hne : ds ≠ [])
    (hds : ∀ c ∈ ds, isDigitCh c = true) (hfne : fd ≠ [])
    (hfd : ∀ c ∈ fd, isDigitCh c = true) :
    pyFloat? ('-' :: (ds ++ '.' :: fd)) =
      some (PyFloat.finite (-((valAcc 0 ds : ℚ) + (valAcc 0 fd : ℚ) / 10 ^ fd.length))) := by
  rcases ds with _ | ⟨c, r⟩
  · exact absurd rfl hne
  · have hc : isDigitCh c = true := hds c (by simp)
    rw [pyFloat?_neg_head (by
      intro x hx
      rcases List.mem_cons.mp hx with rfl | hx
      · exact Or.inr (Or.inr rfl)
      · exact numChar_of_parts hds hfd x hx)]
    rw [List.cons_append, pyFloatBody_number hc, ← List.cons_append,
      pyNumber_digits_frac (c :: r) fd hne hds hfne hfd]
    rfl

/-- Evaluating `pyFloat?` on an unsigned all-digit token. -/
theorem pyFloat?_digits (ds : List Char) (hne : ds ≠ [])
    (hds : ∀ c ∈ ds, isDigitCh c = true) :
    pyFloat? ds = some (PyFloat.finite (valAcc 0 ds : ℚ)) := by
  rcases ds with _ | ⟨c, r⟩
  · exact absurd rfl hne
  · have hc : isDigitCh c = true := hds c (by simp)
    rw [pyFloat?_digit_head hc (fun x hx => Or.inl (hds x hx)),
      pyFloatBody_number hc, pyNumber_digits (c :: r) hne hds]
    rfl

/-- Evaluating `pyFloat?` on a minus sign followed by digits. -/
theorem pyFloat?_neg_digits (ds : List Char) (hne : ds ≠ [])
    (hds : ∀ c ∈ ds, isDigitCh c = true) :
    pyFloat? ('-' :: ds) = some (PyFloat.finite (-(valAcc 0 ds : ℚ))) := by
  rcases ds with _ | ⟨c, r⟩
  · exact absurd rfl hne
  · have hc : isDigitCh c = true := hds c (by simp)
    rw [pyFloat?_neg_head (by
      intro x hx
      rcases List.mem_cons.mp hx with rfl | hx
      · exact Or.inr (Or.inr rfl)
      · exact Or.inl (hds x hx))]
    rw [pyFloatBody_number hc, pyNumber_digits (c :: r) hne hds]
    rfl

/-! ## Helper lemmas: `format2` round trip -/

theorem format2_numChar (n : ℤ) : ∀ c ∈ format2 n, numChar c := by
  intro c hc
  unfold format2 at hc
  set m := n.natAbs with hm
  have hbody : ∀ x ∈ natToDigits (m / 100) ++
      '.' :: [digitCh (m / 10 % 10), digitCh (m % 10)], numChar x := by
    apply numChar_of_parts (natToDigits_digits _)
    intro x hx
    rcases List.mem_cons.mp hx with rfl | hx
    · exact digitCh_isDigit (Nat.mod_lt _ (by omega))
    · rcases List.mem_cons.mp hx with rfl | hx
      · exact digitCh_isDigit (Nat.mod_lt _ (by omega))
      · simp at hx
  by_cases hneg : n < 0
  · simp only [hneg, if_true] at hc
    rcases List.mem_cons.mp hc with rfl | hc
    · exact Or.inr (Or.inr rfl)
    · exact hbody c hc
  · simp only [hneg, if_false] at hc
    exact hbody c hc

theorem valAcc_two (d1 d2 : Char) :
    valAcc 0 [d1, d2] = digitVal d1 * 10 + digitVal d2 := by
  simp [valAcc, List.foldl_cons]

/-- The absolute-value body of `format2` evaluates to `m / 100` under
`pyFloat?`'s number reading. -/
theorem format2_body_val (m : ℕ) :
    (valAcc 0 (natToDigits (m / 100)) : ℚ) +
      (valAcc 0 [digitCh (m / 10 % 10), digitCh (m % 10)] : ℚ) /
        10 ^ ([digitCh (m / 10 % 10), digitCh (m % 10)] : List Char).length
      = (m : ℚ) / 100 := by
  rw [valAcc_natToDigits, valAcc_two,
    digitCh_val (Nat.mod_lt _ (by omega)), digitCh_val (Nat.mod_lt _ (by omega))]
  have hm : 100 * (m / 100) + ((m / 10 % 10) * 10 + m % 10) = m := by omega
  have hq : (100 : ℚ) * (m / 100 : ℕ) + ((m / 10 % 10 : ℕ) * 10 + (m % 10 : ℕ)) = (m : ℚ) := by
    exact_mod_cast congrArg (Nat.cast : ℕ → ℚ) hm
  push_cast at hq ⊢
  rw [List.length_cons, List.length_cons, List.length_nil]
  field_simp
  linarith

/-- Parsing a `format2`-formatted value with Python's `float` recovers it
exactly. -/
theorem pyFloat?_format2 (n : ℤ) :
    pyFloat? (format2 n) = some (PyFloat.finite ((n : ℚ) / 100)) := by
  unfold format2
  set m := n.natAbs with hm
  have hfd : ∀ c ∈ [digitCh (m / 10 % 10), digitCh (m % 10)], isDigitCh c = true := by
    intro x hx
    rcases List.mem_cons.mp hx with rfl | hx
    · exact digitCh_isDigit (Nat.mod_lt _ (by omega))
    · rcases List.mem_cons.mp hx with rfl | hx
      · exact digitCh_isDigit (Nat.mod_lt _ (by omega))
      · simp at hx
  by_cases hneg : n < 0
  · simp only [hneg, if_true]
    rw [pyFloat?_neg_digits_frac _ _ (natToDigits_ne_nil _) (natToDigits_digits _)
      (by simp) hfd, format2_body_val m]
    have : (m : ℚ) = -(n : ℚ) := by
      rw [hm, Int.cast_natAbs]
      rw [abs_of_neg (by exact_mod_cast hneg)]
      push_cast
      ring
    rw [this]
    ring_nf
  · simp only [hneg, if_false]
    rw [pyFloat?_digits_frac _ _ (natToDigits_ne_nil _) (natToDigits_digits _)
      (by simp) hfd, format2_body_val m]
    have : (m : ℚ) = (n : ℚ) := by
      rw [hm, Int.cast_natAbs]
      rw [abs_of_nonneg (by exact_mod_cast not_lt.mp hneg)]
    rw [this]

/-! ## Helper lemmas: characterizing the parser's outcomes -/

theorem parse_eq_some_iff (data : List Char) (s : Sample) :
    parse_imu_data data = some s ↔
      (data.head? = some 'S' ∧ data.getLast? = some 'E') ∧
      (tokens data).map pyFloat? =
        [some s.acc_x, some s.acc_y, some s.acc_z,
         some s.gyro_x, some s.gyro_y, some s.gyro_z] := by
  unfold parse_imu_data
  by_cases henv : data.head? = some 'S' ∧ data.getLast? = some 'E'
  · rw [if_pos henv]
    by_cases hlen : (tokens data).length = 6
    · rw [if_pos hlen]
      obtain ⟨t0, t1, t2, t3, t4, t5, ht⟩ := six_of_length hlen
      rw [ht]
      cases s
      simp only [List.map_cons, List.map_nil]
      cases h0 : pyFloat? t0 <;> cases h1 : pyFloat? t1 <;> cases h2 : pyFloat? t2 <;>
        cases h3 : pyFloat? t3 <;> cases h4 : pyFloat? t4 <;> cases h5 : pyFloat? t5 <;>
        simp_all
    · rw [if_neg hlen]
      constructor
      · intro h; simp at h
      · intro h
        exfalso
        apply hlen
        have hl := congrArg List.length h.2
        simpa using hl
  · rw [if_neg henv]
    constructor
    · intro h; simp at h
    · intro h; exact absurd h.1 henv

theorem parse_eq_none_iff (data : List Char) :
    parse_imu_data data = none ↔
      ¬(data.head? = some 'S' ∧ data.getLast? = some 'E') ∨
      (tokens data).length ≠ 6 ∨ ∃ t ∈ tokens data, pyFloat? t = none := by
  unfold parse_imu_data
  by_cases henv : data.head? = some 'S' ∧ data.getLast? = some 'E'
  · rw [if_pos henv]
    by_cases hlen : (tokens data).length = 6
    · rw [if_pos hlen]
      obtain ⟨t0, t1, t2, t3, t4, t5, ht⟩ := six_of_length hlen
      rw [ht]
      simp only [List.map_cons, List.map_nil]
      cases h0 : pyFloat? t0 <;> cases h1 : pyFloat? t1 <;> cases h2 : pyFloat? t2 <;>
        cases h3 : pyFloat? t3 <;> cases h4 : pyFloat? t4 <;> cases h5 : pyFloat? t5 <;>
        simp_all
    · rw [if_neg hlen]
      simp [henv, hlen]
  · rw [if_neg henv]
    simp [henv]

/-! ## Helper lemmas: the smoother -/

theorem maf_fst (q : List ℚ) (v : ℚ) (W : ℕ) :
    (moving_average_filter q v W).1 = mafQueue q v W := rfl

theorem maf_snd (q : List ℚ) (v : ℚ) (W : ℕ) :
    (moving_average_filter q v W).2 =
      if (mafQueue q v W).length = 0 then none
      else some ((mafQueue q v W).sum / ((mafQueue q v W).length : ℚ)) := rfl

theorem mafQueue_length (q : List ℚ) (v : ℚ) (W : ℕ) :
    (mafQueue q v W).length = if W < q.length + 1 then q.length else q.length + 1 := by
  unfold mafQueue
  simp only [List.length_append, List.length_cons, List.length_nil, Nat.zero_add]
  split <;> simp [List.length_tail]

theorem mafQueue_length_pos (q : List ℚ) (v : ℚ) (W : ℕ) (hW : 0 < W) :
    0 < (mafQueue q v W).length := by
  rw [mafQueue_length]
  split <;> omega

theorem runFilter_cons (q : List ℚ) (W : ℕ) (v : ℚ) (vs : List ℚ) :
    runFilter q W (v :: vs) =
      ((runFilter (moving_average_filter q v W).1 W vs).1,
        (moving_average_filter q v W).2 ::
          (runFilter (moving_average_filter q v W).1 W vs).2) := rfl

theorem runFilter_queue_len (xs : List ℚ) :
    ∀ (q : List ℚ) (W : ℕ), q.length ≤ W →
      ((runFilter q W xs).1).length = min (q.length + xs.length) W := by
  induction xs with
  | nil =>
    intro q W h
    simp only [runFilter, List.length_nil]
    omega
  | cons v vs ih =>
    intro q W h
    have hstep : ((moving_average_filter q v W).1).length = min (q.length + 1) W := by
      rw [maf_fst, mafQueue_length]
      split <;> omega
    rw [runFilter_cons]
    rw [ih _ W (by rw [hstep]; omega), hstep]
    simp only [List.length_cons]
    omega

/-! ## Helper lemmas: frames built around a body -/

theorem getLast_frame (body : List Char) :
    ('S' :: (body ++ ['E'])).getLast? = some 'E' := by
  rw [← List.cons_append, List.getLast?_concat]

theorem tokens_frame (body : List Char) :
    tokens ('S' :: (body ++ ['E'])) = splitSlash body := by
  unfold tokens
  rw [List.drop_succ_cons, List.drop_zero, List.dropLast_concat]

/-! # The claims -/

/-- C1: for every input string that does not start with `S` or does not end
with `E`, or whose body split on `/` yields a number of tokens different
from 6, or in which any token fails numeric conversion, `parse_imu_data`
returns the rejected result `none` and never a partial Sample; conversely,
for every string passing all three checks it returns a full six-field
Sample. -/
theorem C1_rejection_completeness (data : List Char) :
    (parse_imu_data data = none ↔
      ¬(data.head? = some 'S' ∧ data.getLast? = some 'E') ∨
      (tokens data).length ≠ 6 ∨ ∃ t ∈ tokens data, pyFloat? t = none) ∧
    ((data.head? = some 'S' ∧ data.getLast? = some 'E') →
      (tokens data).length = 6 → (∀ t ∈ tokens data, pyFloat? t ≠ none) →
      ∃ s, parse_imu_data data = some s) := by
  constructor
  · exact parse_eq_none_iff data
  · intro h1 h2 h3
    rcases hp : parse_imu_data data with _ | s
    · rw [parse_eq_none_iff] at hp
      rcases hp with h | h | ⟨t, ht, hnone⟩
      · exact absurd h1 h
      · exact absurd h2 h
      · exact absurd hnone (h3 t ht)
    · exact ⟨s, rfl⟩

theorem C1_witness :
    ∃ s, parse_imu_data ("S1/2/3/4/5/6E".toList) = some s :=
  (C1_rejection_completeness _).2 (by with_unfolding_all decide)
    (by with_unfolding_all decide) (by with_unfolding_all decide)

/-- C2: the value returned by `moving_average_filter` equals the arithmetic
mean (sum divided by count) of the values held in the channel's window
after the update; feeding `[1,2,3,4,5]` to one channel with window size 10
returns, in order, 1, 1.5, 2, 2.5, 3. -/
theorem C2_mean_correctness :
    (∀ (q : List ℚ) (v : ℚ) (W : ℕ), 0 < W →
      (moving_average_filter q v W).2 =
        some (((moving_average_filter q v W).1).sum /
          (((moving_average_filter q v W).1).length : ℚ))) ∧
    (runFilter [] 10 [1, 2, 3, 4, 5]).2 =
      [some 1, some (3 / 2), some 2, some (5 / 2), some 3] := by
  constructor
  · intro q v W hW
    simp only [maf_fst, maf_snd]
    rw [if_neg (Nat.pos_iff_ne_zero.mp (mafQueue_length_pos q v W hW))]
  · with_unfolding_all decide

theorem C2_witness :
    (moving_average_filter [] (1 : ℚ) 10).2 =
      some (((moving_average_filter [] (1 : ℚ) 10).1).sum /
        (((moving_average_filter [] (1 : ℚ) 10).1).length : ℚ)) :=
  C2_mean_correctness.1 [] 1 10 (by decide)

/-- C3: for every channel starting from an empty window and every number of
updates with fixed window size `W`, the window length after the updates
equals `min N W`, and in particular never exceeds `W`. -/
theorem C3_window_bound (W : ℕ) (xs : List ℚ) :
    ((runFilter [] W xs).1).length = min xs.length W ∧
    ((runFilter [] W xs).1).length ≤ W := by
  have h := runFilter_queue_len xs [] W (by simp)
  simp only [List.length_nil, Nat.zero_add] at h
  exact ⟨h, by omega⟩

/-- C4: when a channel's window already holds `W` values, an update evicts
exactly the single oldest value (strict FIFO): the new window is the old
one without its head, plus the new value at the end.  With `W = 3`, feeding
`[10,20,30,40]` yields outputs `10, 15, 20, 30`, the last averaging
`[20,30,40]`. -/
theorem C4_eviction_correctness :
    (∀ (q : List ℚ) (v : ℚ) (W : ℕ), 0 < W → q.length = W →
      (moving_average_filter q v W).1 = q.tail ++ [v]) ∧
    (runFilter [] 3 [10, 20, 30, 40]).2 = [some 10, some 15, some 20, some 30] ∧
    (runFilter [] 3 [10, 20, 30, 40]).1 = [20, 30, 40] := by
  refine ⟨?_, by with_unfolding_all decide, by with_unfolding_all decide⟩
  intro q v W hW hlen
  rw [maf_fst]
  unfold mafQueue
  rw [if_pos (by simp [hlen])]
  rcases q with _ | ⟨a, q'⟩
  · simp at hlen; omega
  · simp

theorem C4_witness :
    (moving_average_filter [(5 : ℚ)] 7 1).1 = [(5 : ℚ)].tail ++ [7] :=
  C4_eviction_correctness.1 [5] 7 1 (by decide) (by decide)

/-- C5: formatting any six values of the form `n / 100` (rationals with at
most two decimal places, the exact case of the claim) with two decimal
places, joining with `/` and wrapping in `S`/`E` produces a string that
`parse_imu_data` accepts, recovering exactly the original six values. -/
theorem C5_round_trip (n0 n1 n2 n3 n4 n5 : ℤ) :
    parse_imu_data ('S' :: (joinSlash [format2 n0, format2 n1, format2 n2,
        format2 n3, format2 n4, format2 n5] ++ ['E'])) =
      some ⟨PyFloat.finite ((n0 : ℚ) / 100), PyFloat.finite ((n1 : ℚ) / 100),
        PyFloat.finite ((n2 : ℚ) / 100), PyFloat.finite ((n3 : ℚ) / 100),
        PyFloat.finite ((n4 : ℚ) / 100), PyFloat.finite ((n5 : ℚ) / 100)⟩ := by
  rw [parse_eq_some_iff]
  refine ⟨⟨rfl, getLast_frame _⟩, ?_⟩
  have hslash : ∀ t ∈ [format2 n0, format2 n1, format2 n2, format2 n3,
      format2 n4, format2 n5], '/' ∉ t := by
    intro t ht
    simp only [List.mem_cons, List.not_mem_nil, or_false] at ht
    rcases ht with rfl | rfl | rfl | rfl | rfl | rfl <;>
      exact fun h => numChar_ne_slash (format2_numChar _ '/' h) rfl
  rw [tokens_frame, splitSlash_joinSlash _ (by simp) hslash]
  simp [pyFloat?_format2]

/-- C6: on success, `parse_imu_data` assigns the six parsed token values
positionally, in token order, to `acc_x, acc_y, acc_z, gyro_x, gyro_y,
gyro_z`; the concrete input of the spec's end-to-end scenario parses to
exactly those six values, and one update of a fresh window with window
size 10 returns the raw value unchanged. -/
theorem C6_positional_assignment :
    (∀ (data : List Char) (s : Sample), parse_imu_data data = some s →
      (tokens data).map pyFloat? =
        [some s.acc_x, some s.acc_y, some s.acc_z,
         some s.gyro_x, some s.gyro_y, some s.gyro_z]) ∧
    parse_imu_data ("S0.05/0.11/1.01/-1.38/0.44/0.31E".toList) =
      some ⟨PyFloat.finite (1 / 20), PyFloat.finite (11 / 100),
        PyFloat.finite (101 / 100), PyFloat.finite (-69 / 50),
        PyFloat.finite (11 / 25), PyFloat.finite (31 / 100)⟩ ∧
    (∀ v : ℚ, moving_average_filter [] v 10 = ([v], some v)) := by
  refine ⟨?_, by with_unfolding_all decide, ?_⟩
  · intro data s h
    exact ((parse_eq_some_iff data s).mp h).2
  · intro v
    simp [moving_average_filter, mafQueue]

theorem C6_witness :
    (tokens ("S0.05/0.11/1.01/-1.38/0.44/0.31E".toList)).map pyFloat? =
      [some (PyFloat.finite (1 / 20)), some (PyFloat.finite (11 / 100)),
       some (PyFloat.finite (101 / 100)), some (PyFloat.finite (-69 / 50)),
       some (PyFloat.finite (11 / 25)), some (PyFloat.finite (31 / 100))] :=
  C6_positional_assignment.1 _
    ⟨PyFloat.finite (1 / 20), PyFloat.finite (11 / 100),
      PyFloat.finite (101 / 100), PyFloat.finite (-69 / 50),
      PyFloat.finite (11 / 25), PyFloat.finite (31 / 100)⟩
    (by with_unfolding_all decide)

/-- C7: the rejection outcome is a value distinguishable from every Sample,
and the caller's routing (`read_serial_data`) delivers the original input
text verbatim to the diagnostic path; in particular the garbage line
`"BOOT OK"` is routed with its text preserved. -/
theorem C7_rejection_routing :
    (∀ data : List Char, parse_imu_data data = none →
      route_line data = Sum.inr data) ∧
    (∀ (data : List Char) (s : Sample),
      route_line data = Sum.inl s ↔ parse_imu_data data = some s) ∧
    route_line ("BOOT OK".toList) = Sum.inr ("BOOT OK".toList) := by
  refine ⟨?_, ?_, ?_⟩
  · intro data h
    unfold route_line
    rw [h]
  · intro data s
    unfold route_line
    cases h : parse_imu_data data <;> simp
  · unfold route_line
    rw [show parse_imu_data ("BOOT OK".toList) = none from by with_unfolding_all decide]

theorem C7_witness : route_line ['x'] = Sum.inr ['x'] :=
  C7_rejection_routing.1 ['x'] (by decide)

/-- C8 (counterexample): the token `nan` is outside the spec's "finite
signed decimal notation", yet `parse_imu_data` does not reject the record:
Python's `float("nan")` succeeds, so the claim that any such token causes
rejection — and that every Sample field is finite — is false. -/
theorem C8_counterexample :
    parse_imu_data ("Snan/0/0/0/0/0E".toList) =
      some ⟨PyFloat.nan, PyFloat.finite 0, PyFloat.finite 0,
        PyFloat.finite 0, PyFloat.finite 0, PyFloat.finite 0⟩ := by
  with_unfolding_all decide

/-- C8 (amended): every token in plain signed decimal notation (optional
leading minus, digits, optional fractional digits) is accepted and yields a
finite value, but acceptance is strictly larger than that notation:
Python's `float` also accepts case-insensitive `inf`/`nan` spellings, a
leading `+`, and exponent notation, so Sample fields need not be finite. -/
theorem C8_token_acceptance :
    (∀ l : List Char, plainDecimal l → ∃ q, pyFloat? l = some (PyFloat.finite q)) ∧
    pyFloat? ("nan".toList) = some PyFloat.nan ∧
    pyFloat? ("inf".toList) = some PyFloat.inf ∧
    pyFloat? ("-inf".toList) = some PyFloat.ninf ∧
    pyFloat? ("1e3".toList) = some (PyFloat.finite 1000) ∧
    pyFloat? ("+2.5".toList) = some (PyFloat.finite (5 / 2)) := by
  refine ⟨?_, by with_unfolding_all decide, by with_unfolding_all decide,
    by with_unfolding_all decide, by with_unfolding_all decide,
    by with_unfolding_all decide⟩
  rintro l ⟨sgn, intDig, frac, hsgn, hne, hdig, hfrac, rfl⟩
  rcases hsgn with rfl | rfl
  · rcases hfrac with rfl | ⟨fd, hfne, hfd, rfl⟩
    · rw [List.nil_append, List.append_nil]
      exact ⟨_, pyFloat?_digits intDig hne hdig⟩
    · rw [List.nil_append]
      exact ⟨_, pyFloat?_digits_frac intDig fd hne hdig hfne hfd⟩
  · rcases hfrac with rfl | ⟨fd, hfne, hfd, rfl⟩
    · rw [List.append_nil,
        show ['-'] ++ intDig = '-' :: intDig from rfl]
      exact ⟨_, pyFloat?_neg_digits intDig hne hdig⟩
    · rw [show ['-'] ++ intDig ++ ('.' :: fd) = '-' :: (intDig ++ '.' :: fd) from by simp]
      exact ⟨_, pyFloat?_neg_digits_frac intDig fd hne hdig hfne hfd⟩

theorem C8_witness :
    ∃ q, pyFloat? ['1', '.', '5'] = some (PyFloat.finite q) :=
  C8_token_acceptance.1 ['1', '.', '5']
    ⟨[], ['1'], ['.', '5'], Or.inl rfl, by decide, by decide,
      Or.inr ⟨['5'], by decide, by decide, rfl⟩, by decide⟩

/-- C9: for every finite raw value and every reachable window state under
window size 10, the update returns a defined result: the append happens
before the mean, so the window is non-empty at the division and the
division-by-zero branch is unreachable. -/
theorem C9_update_total (q : List ℚ) (v : ℚ) (_h : q.length ≤ 10) :
    0 < ((moving_average_filter q v 10).1).length ∧
    ∃ r, (moving_average_filter q v 10).2 = some r := by
  have hpos : 0 < (mafQueue q v 10).length := mafQueue_length_pos q v 10 (by omega)
  refine ⟨by rw [maf_fst]; exact hpos, ?_⟩
  rw [maf_snd, if_neg (Nat.pos_iff_ne_zero.mp hpos)]
  exact ⟨_, rfl⟩

theorem C9_witness :
    0 < ((moving_average_filter [] (0 : ℚ) 10).1).length ∧
    ∃ r, (moving_average_filter [] (0 : ℚ) 10).2 = some r :=
  C9_update_total [] 0 (by decide)

/-- C10: `moving_average_filter` removes at most one element per call, so
the bound "length ≤ window size" is preserved when calls use the same or a
non-decreasing window size, but a call with a smaller window size can leave
the queue over the new bound; a call with window size 0 on an empty queue
removes the just-appended element and hits the division by zero; under the
program's actual usage (window size 10 on every call) the bound holds. -/
theorem C10_single_eviction_invariant :
    (∀ (q : List ℚ) (v : ℚ) (W : ℕ),
      ((moving_average_filter q v W).1).length = q.length ∨
      ((moving_average_filter q v W).1).length = q.length + 1) ∧
    (∀ (q : List ℚ) (v : ℚ) (W W' : ℕ), q.length ≤ W → W ≤ W' →
      ((moving_average_filter q v W').1).length ≤ W') ∧
    (((moving_average_filter [1, 2, 3, 4, 5] 6 2).1).length = 5 ∧
      ¬((moving_average_filter [1, 2, 3, 4, 5] 6 2).1).length ≤ 2) ∧
    (∀ v : ℚ, moving_average_filter [] v 0 = ([], none)) ∧
    (∀ xs : List ℚ, ((runFilter [] 10 xs).1).length ≤ 10) := by
  refine ⟨?_, ?_, by with_unfolding_all decide, ?_, ?_⟩
  · intro q v W
    rw [maf_fst, mafQueue_length]
    split <;> omega
  · intro q v W W' h1 h2
    rw [maf_fst, mafQueue_length]
    split <;> omega
  · intro v
    simp [moving_average_filter, mafQueue]
  · intro xs
    have h := runFilter_queue_len xs [] 10 (by simp)
    simp only [List.length_nil, Nat.zero_add] at h
    omega

theorem C10_witness :
    ((moving_average_filter [(1 : ℚ)] 2 10).1).length ≤ 10 :=
  C10_single_eviction_invariant.2.1 [1] 2 10 10 (by decide) (by decide)

end SimpleIMU
